import Mathlib

/-!
Verification development for the Luxeloom chatbot backend
(`chatbot_backend.py`).  Strings are modelled as `List Char`; Python's
`str.lower`/`str.strip`/`re.sub(r'[^\w\s]', '', ·)` are modelled at the
ASCII level (the catalog, keywords and templates are ASCII apart from
emoji, which are neither word nor whitespace characters and behave like
punctuation).  `difflib` ratios are exact rationals `2*M/T` compared by
cross-multiplication; Python compares IEEE doubles, which agree with the
exact comparison for all practically sized inputs since distinct ratios
with denominators `T₁, T₂` differ by at least `1/(T₁T₂)`, far above one
ulp.  `difflib`'s autojunk heuristic (active only when the second
sequence has ≥ 200 characters) is not modelled.
-/

/-- Model of Python `\s` (ASCII whitespace as recognised by `str.strip`
and the `re` module on ASCII text). -/
def isSpaceChar (c : Char) : Bool :=
  c = ' ' || c = '\t' || c = '\n' || c = '\x0d' || c = '\x0b' || c = '\x0c'

/-- Model of Python `str.lower` on ASCII: uppercase letters move down by 32,
all other characters are unchanged. -/
def pyLower (c : Char) : Char :=
  if 65 ≤ c.toNat ∧ c.toNat ≤ 90 then Char.ofNat (c.toNat + 32) else c

/-- Model of Python `\w` on ASCII: letters, digits and the underscore. -/
def isWordChar (c : Char) : Bool :=
  c.isAlphanum || c = '_'

/-- Characters kept by `re.sub(r'[^\w\s]', '', ·)`. -/
def keepChar (c : Char) : Bool :=
  isWordChar c || isSpaceChar c

/-- Model of Python `str.strip`: remove leading and trailing whitespace. -/
def pyStrip (l : List Char) : List Char :=
  ((l.dropWhile isSpaceChar).reverse.dropWhile isSpaceChar).reverse

/-- `LuxeloomChatbot.preprocess_text`:
`re.sub(r'[^\w\s]', '', text.lower().strip())`. -/
def preprocess_text (text : List Char) : List Char :=
  (pyStrip (text.map pyLower)).filter keepChar

/-- Python's substring test `needle in hay`. -/
def containsSub (hay needle : List Char) : Bool :=
  hay.tails.any (fun t => needle.isPrefixOf t)

/-- A catalog record (one value of `self.product_data`). -/
structure Product where
  name : List Char
  price : List Char
  original_price : List Char
  discount : List Char
  description : List Char
  whatsapp : List Char
deriving DecidableEq

def snoopy_tote : Product :=
  { name := "Snoopy Tote".data
    price := "PKR 2,125".data
    original_price := "PKR 2,500".data
    discount := "15% OFF".data
    description := "Tote bag for all the snoopy lovers ❤️ started out rough but we got there in the end.".data
    whatsapp := "+92 307 4674619".data }

def sunny_tote : Product :=
  { name := "Sunny Tote".data
    price := "PKR 2,125".data
    original_price := "PKR 2,500".data
    discount := "15% OFF".data
    description := "Sunny tote! took ages but worth it because she's literally glowing ☀️".data
    whatsapp := "+92 307 4674619".data }

def strawberry_miffi_tote : Product :=
  { name := "Strawberry Miffi Tote".data
    price := "PKR 2,125".data
    original_price := "PKR 2,500".data
    discount := "15% OFF".data
    description := "Watch how this strawberry miffy tote bag came together! love the outcome 🍓".data
    whatsapp := "+92 307 4674619".data }

/-- `self.product_data`: alias → record, in definition order (Python 3.7+
dicts preserve insertion order).  The aliases "strawberry miffi tote" and
"miffy" map to the identical record. -/
def product_data : List (List Char × Product) :=
  [("snoopy tote".data, snoopy_tote),
   ("sunny tote".data, sunny_tote),
   ("strawberry miffi tote".data, strawberry_miffi_tote),
   ("miffy".data, strawberry_miffi_tote)]

/-- `list(self.product_data.keys())`, the `possibilities` handed to
`difflib.get_close_matches`. -/
def product_names : List (List Char) :=
  product_data.map (fun kp => kp.1)

/-- Length of the longest common run starting at the heads of two lists
(the length of the matching block anchored at a given pair of offsets). -/
def runLen : List Char → List Char → Nat
  | a :: as, b :: bs => if a = b then runLen as bs + 1 else 0
  | _, _ => 0

/-- All anchored blocks `(i, j, runLen (a.drop i) (b.drop j))`, listed with
`i` ascending in the outer loop and `j` ascending in the inner loop —
the discovery order of `SequenceMatcher.find_longest_match`. -/
def candidates (a b : List Char) : List (Nat × Nat × Nat) :=
  ((List.range a.length).map (fun i =>
    (List.range b.length).map (fun j =>
      (i, j, runLen (a.drop i) (b.drop j))))).flatten

/-- First block of maximal size in discovery order, i.e. maximal size with
minimal `i`, then minimal `j` — exactly `find_longest_match`'s tie-break
(with no junk, since autojunk is off for short second sequences). -/
def pickBest (l : List (Nat × Nat × Nat)) : Nat × Nat × Nat :=
  l.foldl (fun best c => if best.2.2 < c.2.2 then c else best) (0, 0, 0)

def findBest (a b : List Char) : Nat × Nat × Nat :=
  pickBest (candidates a b)

/-- Total size of the matching blocks of `SequenceMatcher.get_matching_blocks`:
recursively take the longest match and recurse on the parts to its left and
right.  The fuel (any value ≥ `a.length` suffices) makes the recursion
structural. -/
def matchTotal : Nat → List Char → List Char → Nat
  | 0, _, _ => 0
  | fuel + 1, a, b =>
    let best := findBest a b
    if best.2.2 = 0 then 0
    else
      matchTotal fuel (a.take best.1) (b.take best.2.1) + best.2.2 +
        matchTotal fuel (a.drop (best.1 + best.2.2)) (b.drop (best.2.1 + best.2.2))

/-- `M` in `SequenceMatcher.ratio() = 2*M/T`. -/
def matchM (a b : List Char) : Nat :=
  matchTotal a.length a b

/-- `T` in `ratio = 2*M/T`: the total length of the two sequences. -/
def ratioT (a b : List Char) : Nat :=
  a.length + b.length

/-- The `matches` of `SequenceMatcher.quick_ratio`: the size of the
multiset intersection of the two sequences, computed as Python does by
walking `a` and decrementing the available counts of `b`. -/
def interCount : List Char → List Char → Nat
  | [], _ => 0
  | c :: cs, b => if 0 < b.count c then interCount cs (b.erase c) + 1 else interCount cs b

/-- The test `2*m/t >= 0.4`: for exact rationals `2*m/t` this is `t ≤ 5*m`
(IEEE rounding of both sides agrees with the exact comparison for all
practically sized `t`, and `float(0.4)` is the correctly rounded `2/5`). -/
def cutoffOk (m t : Nat) : Bool :=
  t ≤ 5 * m

/-- `get_close_matches`'s filter: `real_quick_ratio() >= cutoff and
quick_ratio() >= cutoff and ratio() >= cutoff` with `cutoff = 0.4`,
where the alias is sequence 1 and the normalized query sequence 2. -/
def passesCutoff (key w : List Char) : Bool :=
  cutoffOk (min key.length w.length) (ratioT key w) &&
  cutoffOk (interCount key w) (ratioT key w) &&
  cutoffOk (matchM key w) (ratioT key w)

/-- Python lexicographic `<` on strings (by code point). -/
def lexLtCh : List Char → List Char → Bool
  | _, [] => false
  | [], _ :: _ => true
  | a :: as, b :: bs => if a < b then true else if b < a then false else lexLtCh as bs

/-- Comparison of scored candidates `(ratio(x), x) > (ratio(y), y)` as
`heapq.nlargest` performs it on `(score, string)` tuples: by ratio
(cross-multiplied exact rationals `2*m/t`), ties by lexicographically
greater string. -/
def scoredGt (w x y : List Char) : Bool :=
  let mx := matchM x w
  let tx := ratioT x w
  let my := matchM y w
  let ty := ratioT y w
  if my * tx < mx * ty then true
  else if mx * ty < my * tx then false
  else lexLtCh y x

/-- The maximum of `init :: l` under the `(score, string)` tuple order,
keeping the earlier element on exact ties (Python `max` semantics). -/
def foldBest (w init : List Char) (l : List (List Char)) : List Char :=
  l.foldl (fun best k2 => if scoredGt w k2 best then k2 else best) init

/-- `difflib.get_close_matches(w, product_names, n=1, cutoff=0.4)`:
filter by the cutoff in catalog order, then `heapq.nlargest(1, ·)` on
`(score, string)` tuples, which is the tuple-maximal element (first of
equals — impossible here since keys are distinct). -/
def get_close_match (w : List Char) : Option (List Char) :=
  match product_names.filter (fun k => passesCutoff k w) with
  | [] => none
  | k :: rest => some (foldBest w k rest)

/-- `self.product_data[key]` for a key known to be present. -/
def lookupKey (k : List Char) : Option Product :=
  (product_data.find? (fun kp => kp.1 == k)).map (fun kp => kp.2)

/-- `LuxeloomChatbot.find_product`: exact substring pass over the catalog
in definition order, then the fuzzy pass, else `None`. -/
def find_product (query : List Char) : Option Product :=
  let query_lower := preprocess_text query
  match product_data.find? (fun kp => containsSub query_lower kp.1) with
  | some kp => some kp.2
  | none =>
    match get_close_match query_lower with
    | some k => lookupKey k
    | none => none

def greeting_words : List (List Char) :=
  ["hello".data, "hi".data, "hey".data, "greetings".data, "good morning".data,
   "good afternoon".data]

def thanks_words : List (List Char) :=
  ["thanks".data, "thank you".data, "thx".data, "thankyou".data, "appreciate".data]

def mission_words : List (List Char) :=
  ["mission".data, "purpose".data, "about".data, "story".data, "edhi".data,
   "charity".data, "donate".data, "proceeds".data]

def care_words : List (List Char) :=
  ["care".data, "wash".data, "clean".data, "maintain".data, "instructions".data,
   "how to care".data]

def ordering_words : List (List Char) :=
  ["order".data, "buy".data, "purchase".data, "how to buy".data, "how to order".data,
   "price".data, "cost".data, "where to buy".data]

def listing_words : List (List Char) :=
  ["products".data, "items".data, "collection".data, "what do you have".data,
   "what's available".data, "show me".data]

def greeting_responses : List (List Char) :=
  ["Hello! 👋 Welcome to Luxeloom! I'm here to help you with our handmade accessories. What would you like to know?".data,
   "Hi there! ✨ I'm your Luxeloom assistant. How can I help you today?".data,
   "Welcome to Luxeloom! 🎀 I'm here to assist you with our collection. What can I help you with?".data,
   "Hello! 🌸 Ready to explore our handmade accessories? What interests you today?".data]

def mission_responses : List (List Char) :=
  ["At Luxeloom, we believe in shopping with purpose! All proceeds from our handmade accessories support Edhi Foundation, Pakistan's largest welfare organization. When you shop with us, you're making a difference! 💙".data,
   "Every purchase you make at Luxeloom directly supports Edhi Foundation! We donate 100% of our profits to help families in need. Shop with your heart! ❤️".data,
   "Our mission is simple: beautiful handmade accessories that give back! All profits go to Edhi Foundation to support those in need across Pakistan. 💝".data]

def care_responses : List (List Char) :=
  ["Here's how to care for your Luxeloom tote bags:\n\n• Hand wash in cold water only\n• Use mild detergent; avoid bleach\n• Do not machine wash or tumble dry\n• Air dry flat or hang in the shade (avoid direct sunlight)\n• Iron inside out on low heat if needed\n• The hand-painted design may soften over time, adding to its unique character ✨".data]

def ordering_responses : List (List Char) :=
  ["To place an order, simply message us on WhatsApp at +92 307 4674619! 📱 We'll be happy to help you with your purchase. Thank you for supporting Luxeloom! 💙".data,
   "Ready to order? Send us a WhatsApp message at +92 307 4674619 and we'll assist you right away! 🌸".data]

def thanks_responses : List (List Char) :=
  ["You're very welcome! Happy to help! 💙".data,
   "Anytime! Feel free to ask if you have more questions! ✨".data,
   "My pleasure! I'm here whenever you need me! 🌸".data,
   "You're welcome! Thanks for choosing Luxeloom! 💝".data]

def fallback_responses : List (List Char) :=
  ["I'm not sure I understand that. Could you ask about our products, mission, care instructions, or how to order? 😊".data,
   "I'm here to help with Luxeloom! Ask me about our products, our mission, care instructions, or ordering! ✨".data,
   "Let me help you! I can tell you about our tote bags, our mission, care instructions, or how to place an order! 💙".data]

/-- The f-string product card of the ordering branch. -/
def orderCard (p : Product) : List Char :=
  "✨ ".data ++ p.name ++ " ✨\n\nPrice: ".data ++ p.price ++ " (Original: ".data ++
    p.original_price ++ ") - ".data ++ p.discount ++ "\n\n".data ++ p.description ++
    "\n\nTo order, WhatsApp us at ".data ++ p.whatsapp ++ "! 📱".data

/-- The f-string product card of the direct product branch. -/
def directCard (p : Product) : List Char :=
  "✨ ".data ++ p.name ++ " ✨\n\nPrice: ".data ++ p.price ++ " (Original: ".data ++
    p.original_price ++ ") - ".data ++ p.discount ++ "\n\n".data ++ p.description ++
    "\n\nTo order: WhatsApp +92 307 4674619 📱".data

/-- Fixed listing appended to an ordering template when no product matched. -/
def collection_suffix : List Char :=
  "\n\nOur current collection includes:\n• Snoopy Tote - PKR 2,125\n• Sunny Tote - PKR 2,125\n• Strawberry Miffi Tote - PKR 2,125\n\nAll with 15% OFF!".data

/-- Fixed response of the listing branch. -/
def listing_text : List Char :=
  "🌟 Our Handmade Collection 🌟\n\n1. Snoopy Tote - PKR 2,125 (15% OFF)\n2. Sunny Tote - PKR 2,125 (15% OFF)\n3. Strawberry Miffi Tote - PKR 2,125 (15% OFF)\n\nClick 'View Details' on any product or ask me about a specific one! 💙".data

/-- One entry of `self.conversation_history`. -/
structure HistEntry where
  role : List Char
  content : List Char
deriving DecidableEq

def mkUserEntry (q : List Char) : HistEntry :=
  { role := "user".data, content := q }

def max_history : Nat := 5

/-- True when the list does not start with a whitespace character (used to
state that an alias has no leading — or, applied to the reversal, no
trailing — whitespace). -/
def headNotSpace (t : List Char) : Bool :=
  match t with
  | [] => true
  | c :: _ => !isSpaceChar c

/-- The history update of `handle_query`: append, then keep the last
`max_history * 2` entries if the cap is exceeded (`[-max_history*2:]`). -/
def stepHistory (h : List HistEntry) (e : HistEntry) : List HistEntry :=
  let h2 := h ++ [e]
  if max_history * 2 < h2.length then h2.drop (h2.length - max_history * 2) else h2

/-- The last `max_history * 2` entries of a history (`[-max_history*2:]`). -/
def capHist (l : List HistEntry) : List HistEntry :=
  l.drop (l.length - max_history * 2)

/-- `LuxeloomChatbot.handle_query`.  `random.choice` is modelled by the
substitutable selection function `choice`; the mutation of
`self.conversation_history` by explicit state passing.  Returns
`(response, new history)`. -/
def handle_query (choice : List (List Char) → List Char) (hist : List HistEntry)
    (query : List Char) : List Char × List HistEntry :=
  let query_proc := preprocess_text query
  let hist2 := stepHistory hist (mkUserEntry query)
  let resp :=
    if greeting_words.any (fun w => containsSub query_proc w) then choice greeting_responses
    else if thanks_words.any (fun w => containsSub query_proc w) then choice thanks_responses
    else if mission_words.any (fun w => containsSub query_proc w) then choice mission_responses
    else if care_words.any (fun w => containsSub query_proc w) then choice care_responses
    else if ordering_words.any (fun w => containsSub query_proc w) then
      match find_product query with
      | some p => orderCard p
      | none => choice ordering_responses ++ collection_suffix
    else
      match find_product query with
      | some p => directCard p
      | none =>
        if listing_words.any (fun w => containsSub query_proc w) then listing_text
        else choice fallback_responses
  (resp, hist2)

/-- Sequential `handle_query` calls threading the conversation history. -/
def runQueries (choice : List (List Char) → List Char) (hist : List HistEntry) :
    List (List Char) → List HistEntry
  | [] => hist
  | q :: qs => runQueries choice (handle_query choice hist q).snd qs

/-- The `get_products` handler of `GET /api/products`: catalog values in
order, deduplicated by `name` keeping the first occurrence (the `seen`
set in the source). -/
def get_products : List Product :=
  ((product_data.map (fun kp => kp.2)).foldl
    (fun acc p => if acc.2.contains p.name then acc else (acc.1 ++ [p], p.name :: acc.2))
    ([], [])).1

/-! ### Facts about the text normalizer -/

theorem toNat_ofNat_small {n : Nat} (h : n < 55296) : (Char.ofNat n).toNat = n := by
  rw [Char.ofNat, dif_pos (Or.inl h)]
  rfl

theorem pyLower_eq_of_not {c : Char} (h : ¬(65 ≤ c.toNat ∧ c.toNat ≤ 90)) :
    pyLower c = c := by
  simp only [pyLower, if_neg h]

theorem pyLower_toNat_of_upper {c : Char} (h : 65 ≤ c.toNat ∧ c.toNat ≤ 90) :
    (pyLower c).toNat = c.toNat + 32 := by
  rw [pyLower, if_pos h, toNat_ofNat_small (by omega)]

theorem pyLower_idem (c : Char) : pyLower (pyLower c) = pyLower c := by
  by_cases h : 65 ≤ c.toNat ∧ c.toNat ≤ 90
  · exact pyLower_eq_of_not (by have := pyLower_toNat_of_upper h; omega)
  · rw [pyLower_eq_of_not h]
    exact pyLower_eq_of_not h

theorem pyLower_not_upper (c : Char) : ¬(65 ≤ (pyLower c).toNat ∧ (pyLower c).toNat ≤ 90) := by
  by_cases h : 65 ≤ c.toNat ∧ c.toNat ≤ 90
  · have := pyLower_toNat_of_upper h; omega
  · rw [pyLower_eq_of_not h]; exact h

theorem dropWhile_idem (p : Char → Bool) (l : List Char) :
    (l.dropWhile p).dropWhile p = l.dropWhile p := by
  induction l with
  | nil => rfl
  | cons c l ih =>
    by_cases h : p c
    · simp [List.dropWhile_cons, h, ih]
    · simp [List.dropWhile_cons, h]

theorem dropWhile_append_singleton {p : Char → Bool} {hd : Char} (h : p hd = false)
    (w : List Char) : ∃ z, (w ++ [hd]).dropWhile p = z ++ [hd] := by
  induction w with
  | nil => exact ⟨[], by simp [List.dropWhile_cons, h]⟩
  | cons c w ih =>
    by_cases hc : p c
    · obtain ⟨z, hz⟩ := ih
      exact ⟨z, by simp [List.dropWhile_cons, hc, hz]⟩
    · exact ⟨c :: w, by simp [List.dropWhile_cons, hc]⟩

theorem head_dropWhile_false {p : Char → Bool} :
    ∀ {l : List Char} {hd : Char} {tl : List Char},
      l.dropWhile p = hd :: tl → p hd = false := by
  intro l
  induction l with
  | nil => intro hd tl h; simp [List.dropWhile] at h
  | cons c l ih =>
    intro hd tl h
    rw [List.dropWhile_cons] at h
    by_cases hc : p c
    · rw [if_pos hc] at h; exact ih h
    · rw [if_neg hc] at h
      cases h
      simpa using hc

theorem pyStrip_reverse_stripped (x : List Char) :
    (pyStrip x).reverse.dropWhile isSpaceChar = (pyStrip x).reverse := by
  simp only [pyStrip, List.reverse_reverse]
  exact dropWhile_idem _ _

theorem pyStrip_stripped (x : List Char) :
    (pyStrip x).dropWhile isSpaceChar = pyStrip x := by
  rcases hy : x.dropWhile isSpaceChar with _ | ⟨hd, tl⟩
  · simp [pyStrip, hy]
  · have hhd : isSpaceChar hd = false := head_dropWhile_false hy
    obtain ⟨z, hz⟩ := dropWhile_append_singleton hhd tl.reverse
    simp [pyStrip, hy, hz, List.dropWhile_cons, hhd]

theorem pyStrip_eq_self {t : List Char} (h1 : t.dropWhile isSpaceChar = t)
    (h2 : t.reverse.dropWhile isSpaceChar = t.reverse) : pyStrip t = t := by
  simp [pyStrip, h1, h2]

theorem pyStrip_idem (x : List Char) : pyStrip (pyStrip x) = pyStrip x :=
  pyStrip_eq_self (pyStrip_stripped x) (pyStrip_reverse_stripped x)

theorem pyStrip_sublist (l : List Char) : List.Sublist (pyStrip l) l := by
  have h2 : List.Sublist ((l.dropWhile isSpaceChar).reverse.dropWhile isSpaceChar)
      (l.dropWhile isSpaceChar).reverse := List.dropWhile_sublist _
  have h3 := List.reverse_sublist.mpr h2
  rw [List.reverse_reverse] at h3
  exact h3.trans (List.dropWhile_sublist _)

theorem mem_preprocess {s : List Char} {c : Char} (hc : c ∈ preprocess_text s) :
    keepChar c = true ∧ pyLower c = c := by
  have h1 : keepChar c = true := List.of_mem_filter hc
  have h2 : c ∈ pyStrip (s.map pyLower) := List.mem_of_mem_filter hc
  have h3 : c ∈ s.map pyLower := (pyStrip_sublist _).subset h2
  obtain ⟨d, _, hd⟩ := List.mem_map.mp h3
  exact ⟨h1, by rw [← hd, pyLower_idem]⟩

theorem preprocess_of_fixed {t : List Char} (hmap : t.map pyLower = t)
    (hfilter : t.filter keepChar = t) : preprocess_text t = pyStrip t := by
  show (pyStrip (t.map pyLower)).filter keepChar = pyStrip t
  rw [hmap]
  exact List.filter_eq_self.mpr
    (fun a ha => List.filter_eq_self.mp hfilter a ((pyStrip_sublist _).subset ha))

theorem preprocess_preprocess (s : List Char) :
    preprocess_text (preprocess_text s) = pyStrip (preprocess_text s) := by
  apply preprocess_of_fixed
  · have h : (preprocess_text s).map pyLower = (preprocess_text s).map id :=
      List.map_congr_left (fun a ha => (mem_preprocess ha).2)
    simpa using h
  · exact List.filter_eq_self.mpr (fun a ha => (mem_preprocess ha).1)

/-- Claim C1 (amended): `preprocess_text` is not idempotent in general; one
application of `preprocess_text` to its own output only strips the
leading/trailing whitespace that punctuation removal may have exposed, so
the normalizer is idempotent from the second application on:
`preprocess_text ∘ preprocess_text ∘ preprocess_text =
 preprocess_text ∘ preprocess_text`. -/
theorem preprocess_text_eventually_idempotent (s : List Char) :
    preprocess_text (preprocess_text s) = pyStrip (preprocess_text s) ∧
    preprocess_text (preprocess_text (preprocess_text s)) =
      preprocess_text (preprocess_text s) := by
  refine ⟨preprocess_preprocess s, ?_⟩
  rw [preprocess_preprocess s]
  have hmap : (pyStrip (preprocess_text s)).map pyLower =
      (pyStrip (preprocess_text s)).map id :=
    List.map_congr_left
      (fun a ha => (mem_preprocess ((pyStrip_sublist _).subset ha)).2)
  have hfil : (pyStrip (preprocess_text s)).filter keepChar = pyStrip (preprocess_text s) :=
    List.filter_eq_self.mpr
      (fun a ha => (mem_preprocess ((pyStrip_sublist _).subset ha)).1)
  rw [preprocess_of_fixed (by simpa using hmap) hfil, pyStrip_idem]

/-- Claim C1 counterexample: `". a ."` normalizes to `" a "` (the dots are
removed only after stripping, exposing new edge whitespace), and a second
application strips that to `"a"`; hence
`preprocess_text (preprocess_text s) ≠ preprocess_text s`. -/
theorem preprocess_text_not_idempotent :
    preprocess_text ". a .".data = " a ".data ∧
    preprocess_text (preprocess_text ". a .".data) ≠ preprocess_text ". a .".data := by
  decide

/-- Claim C2 (amended): every character of the output is a kept character
(word character — alphanumeric or underscore — or whitespace) and is not
an uppercase ASCII letter, and the output is a subsequence of the
lowercased input; but underscores are kept (Python `\w` includes them)
and leading/trailing whitespace exposed by punctuation removal remains. -/
theorem preprocess_text_shape (s : List Char) :
    (∀ c ∈ preprocess_text s,
      (c.isAlphanum || c = '_' || isSpaceChar c) = true ∧
      ¬(65 ≤ c.toNat ∧ c.toNat ≤ 90)) ∧
    List.Sublist (preprocess_text s) (s.map pyLower) := by
  constructor
  · intro c hc
    constructor
    · have h1 := (mem_preprocess hc).1
      simpa [keepChar, isWordChar, Bool.or_assoc] using h1
    · have h3 : c ∈ s.map pyLower :=
        (pyStrip_sublist _).subset (List.mem_of_mem_filter hc)
      obtain ⟨d, _, hd⟩ := List.mem_map.mp h3
      rw [← hd]
      exact pyLower_not_upper d
  · exact (List.filter_sublist _).trans (pyStrip_sublist _)

/-- Claim C2 counterexample: on `". a_ ."` the output is `" a_ "`, which
has a leading whitespace character and contains the underscore, a
character that is neither alphanumeric nor whitespace — contradicting the
claimed output shape. -/
theorem preprocess_text_shape_violation :
    preprocess_text ". a_ .".data = " a_ ".data ∧
    (preprocess_text ". a_ .".data).head? = some ' ' ∧
    ∃ c ∈ preprocess_text ". a_ .".data, (c.isAlphanum || isSpaceChar c) = false := by
  decide

/-! ### Intent routing -/

/-- Claim C5: the response component of `handle_query` does not read the
conversation history: starting from any two history states, the same query
with the same selection function produces the same response string. -/
theorem handle_query_response_ignores_history
    (choice : List (List Char) → List Char) (q : List Char)
    (h1 h2 : List HistEntry) :
    (handle_query choice h1 q).1 = (handle_query choice h2 q).1 := rfl

/-- Claim C3: the greeting rule is checked first, so any message whose
normalized form contains a greeting keyword — in particular one that also
contains a mission keyword — gets a greeting-category template and never a
mission-category one. -/
theorem handle_query_greeting_priority
    (choice : List (List Char) → List Char)
    (hc : ∀ l : List (List Char), l ≠ [] → choice l ∈ l)
    (hist : List HistEntry) (s : List Char)
    (hg : greeting_words.any (fun w => containsSub (preprocess_text s) w) = true)
    (_hm : mission_words.any (fun w => containsSub (preprocess_text s) w) = true) :
    (handle_query choice hist s).1 = choice greeting_responses ∧
    (handle_query choice hist s).1 ∈ greeting_responses ∧
    (handle_query choice hist s).1 ∉ mission_responses := by
  have hfst : (handle_query choice hist s).1 = choice greeting_responses := by
    simp [handle_query, hg]
  have hin : choice greeting_responses ∈ greeting_responses := hc _ (by decide)
  have hdisj : ∀ x ∈ greeting_responses, x ∉ mission_responses := by decide
  exact ⟨hfst, hfst ▸ hin, hfst ▸ hdisj _ hin⟩

/-- Claim C3 witness at `"hi, tell me about your mission"` with the
deterministic head-picking selection stub. -/
theorem handle_query_greeting_priority_witness :
    (∀ l : List (List Char), l ≠ [] → l.headD [] ∈ l) ∧
    greeting_words.any
      (fun w => containsSub (preprocess_text "hi, tell me about your mission".data) w) = true ∧
    mission_words.any
      (fun w => containsSub (preprocess_text "hi, tell me about your mission".data) w) = true ∧
    ((handle_query (fun l => l.headD []) [] "hi, tell me about your mission".data).1 =
        (fun l : List (List Char) => l.headD []) greeting_responses ∧
      (handle_query (fun l => l.headD []) [] "hi, tell me about your mission".data).1 ∈
        greeting_responses ∧
      (handle_query (fun l => l.headD []) [] "hi, tell me about your mission".data).1 ∉
        mission_responses) := by
  have hhead : ∀ l : List (List Char), l ≠ [] → l.headD [] ∈ l := by
    intro l hl
    cases l with
    | nil => exact absurd rfl hl
    | cons a t => simp
  exact ⟨hhead, by decide, by decide,
    handle_query_greeting_priority _ hhead [] _ (by decide) (by decide)⟩

/-- Claim C8: "What is the price of the sunny tote?" fails the greeting,
thanks, mission and care checks, passes the ordering check (keyword
"price"), `find_product` finds the sunny tote record, and the response is
the ordering product card, which contains "PKR 2,125" and the contact
handle "+92 307 4674619". -/
theorem ordering_price_sunny_tote (choice : List (List Char) → List Char)
    (hist : List HistEntry) :
    greeting_words.any
      (fun w => containsSub (preprocess_text "What is the price of the sunny tote?".data) w) = false ∧
    thanks_words.any
      (fun w => containsSub (preprocess_text "What is the price of the sunny tote?".data) w) = false ∧
    mission_words.any
      (fun w => containsSub (preprocess_text "What is the price of the sunny tote?".data) w) = false ∧
    care_words.any
      (fun w => containsSub (preprocess_text "What is the price of the sunny tote?".data) w) = false ∧
    ordering_words.any
      (fun w => containsSub (preprocess_text "What is the price of the sunny tote?".data) w) = true ∧
    find_product "What is the price of the sunny tote?".data = some sunny_tote ∧
    (handle_query choice hist "What is the price of the sunny tote?".data).1 =
      orderCard sunny_tote ∧
    containsSub (orderCard sunny_tote) "PKR 2,125".data = true ∧
    containsSub (orderCard sunny_tote) "+92 307 4674619".data = true := by
  refine ⟨by decide, by decide, by decide, by decide, by decide, by decide, rfl,
    by decide, by decide⟩

/-- Claim C10: keyword matching is substring containment on the
normalized query, not word-level membership: "this is nice" and
"show me your shirts" both contain "hi" inside longer words and therefore
take the greeting branch — the second even though it also matches the
listing keyword "show me". -/
theorem keyword_matching_is_substring
    (choice : List (List Char) → List Char)
    (hc : ∀ l : List (List Char), l ≠ [] → choice l ∈ l)
    (hist : List HistEntry) :
    containsSub (preprocess_text "this is nice".data) "hi".data = true ∧
    containsSub (preprocess_text "show me your shirts".data) "hi".data = true ∧
    listing_words.any
      (fun w => containsSub (preprocess_text "show me your shirts".data) w) = true ∧
    (handle_query choice hist "this is nice".data).1 ∈ greeting_responses ∧
    (handle_query choice hist "show me your shirts".data).1 ∈ greeting_responses := by
  have e1 : (handle_query choice hist "this is nice".data).1 = choice greeting_responses := rfl
  have e2 : (handle_query choice hist "show me your shirts".data).1 =
      choice greeting_responses := rfl
  have hin : choice greeting_responses ∈ greeting_responses := hc _ (by decide)
  exact ⟨by decide, by decide, by decide, e1 ▸ hin, e2 ▸ hin⟩

/-- Claim C10 witness with the deterministic head-picking selection stub. -/
theorem keyword_matching_is_substring_witness :
    (∀ l : List (List Char), l ≠ [] → l.headD [] ∈ l) ∧
    (containsSub (preprocess_text "this is nice".data) "hi".data = true ∧
     containsSub (preprocess_text "show me your shirts".data) "hi".data = true ∧
     listing_words.any
       (fun w => containsSub (preprocess_text "show me your shirts".data) w) = true ∧
     (handle_query (fun l => l.headD []) [] "this is nice".data).1 ∈ greeting_responses ∧
     (handle_query (fun l => l.headD []) [] "show me your shirts".data).1 ∈
       greeting_responses) := by
  have hhead : ∀ l : List (List Char), l ≠ [] → l.headD [] ∈ l := by
    intro l hl
    cases l with
    | nil => exact absurd rfl hl
    | cons a t => simp
  exact ⟨hhead, keyword_matching_is_substring _ hhead []⟩

/-- Claim C9: the `/api/products` list deduplicates by name keeping the
first occurrence in catalog order: the four catalog values (with
"strawberry miffi tote" and "miffy" mapping to the identical record)
collapse to three entries with pairwise distinct names. -/
theorem get_products_dedup_by_name :
    get_products = [snoopy_tote, sunny_tote, strawberry_miffi_tote] ∧
    (get_products.map (fun p => p.name)).Nodup ∧
    ("strawberry miffi tote".data, strawberry_miffi_tote) ∈ product_data ∧
    ("miffy".data, strawberry_miffi_tote) ∈ product_data ∧
    (product_data.map (fun kp => kp.2)).length = 4 := by
  refine ⟨by decide, by decide, by decide, by decide, by decide⟩

/-! ### The conversation history cap -/

theorem stepHistory_eq_capHist (h : List HistEntry) (e : HistEntry) :
    stepHistory h e = capHist (h ++ [e]) := by
  simp only [stepHistory, capHist]
  by_cases hlen : max_history * 2 < (h ++ [e]).length
  · rw [if_pos hlen]
  · rw [if_neg hlen, Nat.sub_eq_zero_of_le (Nat.not_lt.mp hlen), List.drop_zero]

theorem capHist_capHist_append (l r : List HistEntry) :
    capHist (capHist l ++ r) = capHist (l ++ r) := by
  simp only [capHist, List.length_append, List.length_drop, max_history]
  rw [List.drop_append_eq_append_drop, List.drop_append_eq_append_drop, List.drop_drop,
    List.length_drop]
  congr 2 <;> omega

theorem runQueries_capHist (choice : List (List Char) → List Char) :
    ∀ (qs : List (List Char)) (l : List HistEntry),
      runQueries choice (capHist l) qs = capHist (l ++ qs.map mkUserEntry) := by
  intro qs
  induction qs with
  | nil => intro l; simp [runQueries]
  | cons q qs ih =>
    intro l
    show runQueries choice (handle_query choice (capHist l) q).2 qs = _
    have hsnd : (handle_query choice (capHist l) q).2 =
        stepHistory (capHist l) (mkUserEntry q) := rfl
    rw [hsnd, stepHistory_eq_capHist, capHist_capHist_append, ih (l ++ [mkUserEntry q])]
    simp

/-- Claim C4: every `handle_query` call appends exactly one entry (capping
at `max_history * 2 = 10`), and after any sequence of calls starting from
an empty history the log holds exactly the most recent raw queries in
arrival order, its length being `min n 10`. -/
theorem conversation_history_cap (choice : List (List Char) → List Char)
    (qs : List (List Char)) :
    runQueries choice [] qs =
      (qs.map mkUserEntry).drop (qs.length - max_history * 2) ∧
    (runQueries choice [] qs).length = min qs.length (max_history * 2) ∧
    ∀ (h : List HistEntry) (q : List Char),
      ((handle_query choice h q).2).length = min (h.length + 1) (max_history * 2) := by
  have h1 : runQueries choice [] qs = capHist (qs.map mkUserEntry) := by
    have h0 : ([] : List HistEntry) = capHist [] := rfl
    rw [h0, runQueries_capHist]
    simp
  refine ⟨?_, ?_, ?_⟩
  · rw [h1]; simp [capHist]
  · rw [h1]; simp only [capHist, List.length_drop, List.length_map, max_history]; omega
  · intro h q
    have he : (handle_query choice h q).2 = stepHistory h (mkUserEntry q) := rfl
    rw [he, stepHistory_eq_capHist]
    simp only [capHist, List.length_drop, List.length_append, List.length_cons,
      List.length_nil, max_history]
    omega

/-! ### The exact-substring pass of the product matcher -/

theorem dropWhile_eq_self_of_filter {x t : List Char}
    (hx : x.filter keepChar = t) (hhd : headNotSpace t = true) :
    x.dropWhile isSpaceChar = x := by
  cases x with
  | nil => rfl
  | cons c x' =>
    by_cases hsp : isSpaceChar c = true
    · exfalso
      have hkeep : keepChar c = true := by simp [keepChar, hsp]
      have ht : t = c :: x'.filter keepChar := by
        rw [← hx, List.filter_cons, if_pos hkeep]
      rw [ht] at hhd
      simp [headNotSpace, hsp] at hhd
    · rw [List.dropWhile_cons, if_neg hsp]

theorem preprocess_eq_of_filter {s t : List Char}
    (hs : (s.map pyLower).filter keepChar = t)
    (hhd : headNotSpace t = true) (hlast : headNotSpace t.reverse = true) :
    preprocess_text s = t := by
  have h1 := dropWhile_eq_self_of_filter hs hhd
  have h2 : (s.map pyLower).reverse.filter keepChar = t.reverse := by
    rw [List.filter_reverse, hs]
  have h3 := dropWhile_eq_self_of_filter h2 hlast
  show (pyStrip (s.map pyLower)).filter keepChar = t
  rw [pyStrip_eq_self h1 h3, hs]

/-- Claim C6: a query that is an alias up to letter case and inserted
punctuation (its lowercasing followed by removal of non-word,
non-whitespace characters gives back the alias) normalizes to the alias
itself, is resolved by the exact-substring pass — `find?` in catalog
definition order returns that alias's pair, so the fuzzy pass is never
reached — and yields that alias's product record. -/
theorem find_product_exact_alias
    (kp : List Char × Product) (s : List Char)
    (hmem : kp ∈ product_data)
    (hs : (s.map pyLower).filter keepChar = kp.1) :
    preprocess_text s = kp.1 ∧
    product_data.find? (fun e => containsSub (preprocess_text s) e.1) = some kp ∧
    find_product s = some kp.2 := by
  simp only [product_data, List.mem_cons, List.not_mem_nil, or_false] at hmem
  rcases hmem with rfl | rfl | rfl | rfl <;>
  · have hpre := preprocess_eq_of_filter hs (by decide) (by decide)
    refine ⟨hpre, ?_, ?_⟩
    · rw [hpre]; decide
    · show (match product_data.find?
          (fun e => containsSub (preprocess_text s) e.1) with
        | some kp => some kp.2
        | none =>
          match get_close_match (preprocess_text s) with
          | some k => lookupKey k
          | none => none) = _
      rw [hpre]
      decide

/-- Claim C6 witness: `"SnOopy!! Tote"` — case varied, punctuation added —
resolves to the snoopy tote record through the exact pass. -/
theorem find_product_exact_alias_witness :
    (("snoopy tote".data, snoopy_tote) ∈ product_data) ∧
    (("SnOopy!! Tote".data.map pyLower).filter keepChar = "snoopy tote".data) ∧
    (preprocess_text "SnOopy!! Tote".data = "snoopy tote".data ∧
     product_data.find?
       (fun e => containsSub (preprocess_text "SnOopy!! Tote".data) e.1) =
         some ("snoopy tote".data, snoopy_tote) ∧
     find_product "SnOopy!! Tote".data = some snoopy_tote) := by
  exact ⟨by decide, by decide,
    find_product_exact_alias ("snoopy tote".data, snoopy_tote) _ (by decide) (by decide)⟩

/-! ### Bounds on the matching-block total (the quick ratios are upper
bounds on the true ratio, so the 0.4 filter reduces to the ratio test) -/

theorem count_erase_le (c x : Char) (b : List Char) :
    (b.erase x).count c ≤ b.count c := by
  rw [List.count_erase]
  omega

theorem interCount_erase_add_one (a : List Char) :
    ∀ (b : List Char) (x : Char), interCount a b ≤ interCount a (b.erase x) + 1 := by
  induction a with
  | nil => intro b x; simp [interCount]
  | cons c cs ih =>
    intro b x
    simp only [interCount]
    by_cases h1 : 0 < b.count c
    · rw [if_pos h1]
      by_cases h2 : 0 < (b.erase x).count c
      · rw [if_pos h2, List.erase_comm]
        have := ih (b.erase c) x
        omega
      · rw [if_neg h2]
        by_cases hcx : c = x
        · subst hcx
          omega
        · exfalso
          rw [List.count_erase_of_ne hcx] at h2
          exact h2 h1
    · rw [if_neg h1]
      have h2 : ¬ 0 < (b.erase x).count c := by
        have := count_erase_le c x b
        omega
      rw [if_neg h2]
      exact ih b x

theorem interCount_erase_le (a : List Char) :
    ∀ (b : List Char) (x : Char), interCount a (b.erase x) ≤ interCount a b := by
  induction a with
  | nil => intro b x; simp [interCount]
  | cons c cs ih =>
    intro b x
    simp only [interCount]
    by_cases h2 : 0 < (b.erase x).count c
    · have h1 : 0 < b.count c := lt_of_lt_of_le h2 (count_erase_le c x b)
      rw [if_pos h2, if_pos h1, List.erase_comm]
      have := ih (b.erase c) x
      omega
    · rw [if_neg h2]
      by_cases h1 : 0 < b.count c
      · rw [if_pos h1]
        by_cases hcx : c = x
        · subst hcx
          have := ih (b.erase c) c
          omega
        · exfalso
          rw [List.count_erase_of_ne hcx] at h2
          exact h2 h1
      · rw [if_neg h1]
        exact ih b x

theorem interCount_append_left (y : List Char) :
    ∀ (u v : List Char), interCount y v ≤ interCount y (u ++ v) := by
  induction y with
  | nil => intro u v; simp [interCount]
  | cons c ys ih =>
    intro u v
    simp only [interCount]
    by_cases hv : 0 < v.count c
    · have huv : 0 < (u ++ v).count c := by
        rw [List.count_append]; omega
      rw [if_pos hv, if_pos huv]
      by_cases hcu : c ∈ u
      · rw [List.erase_append_left _ hcu]
        have ha := interCount_erase_le ys v c
        have hb := ih (u.erase c) v
        omega
      · rw [List.erase_append_right _ hcu]
        have := ih u (v.erase c)
        omega
    · rw [if_neg hv]
      by_cases huv : 0 < (u ++ v).count c
      · rw [if_pos huv]
        have hcu : c ∈ u := by
          rw [List.count_append] at huv
          exact List.count_pos_iff.mp (by omega)
        rw [List.erase_append_left _ hcu]
        have := ih (u.erase c) v
        omega
      · rw [if_neg huv]
        exact ih u v

theorem interCount_append_add (x : List Char) :
    ∀ (y u v : List Char),
      interCount x u + interCount y v ≤ interCount (x ++ y) (u ++ v) := by
  induction x with
  | nil =>
    intro y u v
    simpa [interCount] using interCount_append_left y u v
  | cons c cs ih =>
    intro y u v
    simp only [List.cons_append, interCount, List.append_eq]
    by_cases hu : 0 < u.count c
    · have huv : 0 < (u ++ v).count c := by
        rw [List.count_append]; omega
      rw [if_pos hu, if_pos huv,
        List.erase_append_left _ (List.count_pos_iff.mp hu)]
      have := ih y (u.erase c) v
      omega
    · rw [if_neg hu]
      by_cases huv : 0 < (u ++ v).count c
      · have hv : 0 < v.count c := by
          rw [List.count_append] at huv
          omega
        have hcu : c ∉ u := fun h => hu (List.count_pos_iff.mpr h)
        rw [if_pos huv, List.erase_append_right _ hcu]
        have ha := ih y u (v.erase c)
        have hb := interCount_erase_add_one y v c
        omega
      · rw [if_neg huv]
        exact ih y u v

theorem interCount_self (l : List Char) : interCount l l = l.length := by
  induction l with
  | nil => rfl
  | cons c cs ih =>
    simp only [interCount, List.count_cons_self, List.erase_cons_head, List.length_cons]
    rw [if_pos (by omega)]
    omega

theorem runLen_le_left : ∀ (a b : List Char), runLen a b ≤ a.length := by
  intro a
  induction a with
  | nil => intro b; cases b <;> simp [runLen]
  | cons x as ih =>
    intro b
    cases b with
    | nil => simp [runLen]
    | cons y bs =>
      simp only [runLen, List.length_cons]
      by_cases h : x = y
      · rw [if_pos h]
        have := ih bs
        omega
      · rw [if_neg h]
        omega

theorem runLen_le_right : ∀ (a b : List Char), runLen a b ≤ b.length := by
  intro a
  induction a with
  | nil => intro b; cases b <;> simp [runLen]
  | cons x as ih =>
    intro b
    cases b with
    | nil => simp [runLen]
    | cons y bs =>
      simp only [runLen, List.length_cons]
      by_cases h : x = y
      · rw [if_pos h]
        have := ih bs
        omega
      · rw [if_neg h]
        omega

theorem runLen_take_eq : ∀ (a b : List Char),
    a.take (runLen a b) = b.take (runLen a b) := by
  intro a
  induction a with
  | nil => intro b; cases b <;> simp [runLen]
  | cons x as ih =>
    intro b
    cases b with
    | nil => simp [runLen]
    | cons y bs =>
      simp only [runLen]
      by_cases h : x = y
      · rw [if_pos h, h]
        simp [List.take_succ_cons, ih bs]
      · rw [if_neg h]
        simp

theorem pickFold_mem : ∀ (l : List (Nat × Nat × Nat)) (init : Nat × Nat × Nat),
    l.foldl (fun best c => if best.2.2 < c.2.2 then c else best) init = init ∨
      l.foldl (fun best c => if best.2.2 < c.2.2 then c else best) init ∈ l := by
  intro l
  induction l with
  | nil => intro init; left; rfl
  | cons c rest ih =>
    intro init
    simp only [List.foldl_cons]
    rcases ih (if init.2.2 < c.2.2 then c else init) with h | h
    · rw [h]
      by_cases hc : init.2.2 < c.2.2
      · right; rw [if_pos hc]; exact List.mem_cons_self _ _
      · left; rw [if_neg hc]
    · right
      exact List.mem_cons_of_mem _ h

theorem findBest_spec {a b : List Char} (h : (findBest a b).2.2 ≠ 0) :
    (findBest a b).1 < a.length ∧ (findBest a b).2.1 < b.length ∧
      (findBest a b).2.2 = runLen (a.drop (findBest a b).1) (b.drop (findBest a b).2.1) := by
  have hfb : findBest a b =
      (candidates a b).foldl (fun best c => if best.2.2 < c.2.2 then c else best)
        (0, 0, 0) := rfl
  rcases pickFold_mem (candidates a b) (0, 0, 0) with h0 | hmem
  · rw [hfb, h0] at h
    exact absurd rfl h
  · rw [← hfb] at hmem
    obtain ⟨li, hli, hmem2⟩ := List.mem_flatten.mp hmem
    obtain ⟨i, hi, rfl⟩ := List.mem_map.mp hli
    obtain ⟨j, hj, heq⟩ := List.mem_map.mp hmem2
    rw [← heq]
    exact ⟨List.mem_range.mp hi, List.mem_range.mp hj, rfl⟩

theorem matchTotal_le_min : ∀ (fuel : Nat) (a b : List Char),
    matchTotal fuel a b ≤ min a.length b.length := by
  intro fuel
  induction fuel with
  | zero => intro a b; simp [matchTotal]
  | succ fuel ih =>
    intro a b
    by_cases hk : (findBest a b).2.2 = 0
    · simp [matchTotal, hk]
    · obtain ⟨hia, hjb, hkr⟩ := findBest_spec hk
      have hk1 : (findBest a b).2.2 ≤ a.length - (findBest a b).1 := by
        have := runLen_le_left (a.drop (findBest a b).1) (b.drop (findBest a b).2.1)
        rw [← hkr] at this
        simpa using this
      have hk2 : (findBest a b).2.2 ≤ b.length - (findBest a b).2.1 := by
        have := runLen_le_right (a.drop (findBest a b).1) (b.drop (findBest a b).2.1)
        rw [← hkr] at this
        simpa using this
      have h1 := ih (a.take (findBest a b).1) (b.take (findBest a b).2.1)
      have h2 := ih (a.drop ((findBest a b).1 + (findBest a b).2.2))
        (b.drop ((findBest a b).2.1 + (findBest a b).2.2))
      simp only [matchTotal, if_neg hk]
      simp only [List.length_take, List.length_drop] at h1 h2 ⊢
      omega

theorem matchTotal_le_inter : ∀ (fuel : Nat) (a b : List Char),
    matchTotal fuel a b ≤ interCount a b := by
  intro fuel
  induction fuel with
  | zero => intro a b; simp [matchTotal]
  | succ fuel ih =>
    intro a b
    by_cases hk : (findBest a b).2.2 = 0
    · simp [matchTotal, hk]
    · obtain ⟨hia, hjb, hkr⟩ := findBest_spec hk
      have hk1 : (findBest a b).2.2 ≤ a.length - (findBest a b).1 := by
        have := runLen_le_left (a.drop (findBest a b).1) (b.drop (findBest a b).2.1)
        rw [← hkr] at this
        simpa using this
      have hmid : ((a.drop (findBest a b).1).take (findBest a b).2.2) =
          ((b.drop (findBest a b).2.1).take (findBest a b).2.2) := by
        rw [hkr]
        exact runLen_take_eq _ _
      have hsplit_a : a = a.take (findBest a b).1 ++
          (((a.drop (findBest a b).1).take (findBest a b).2.2) ++
            a.drop ((findBest a b).1 + (findBest a b).2.2)) := by
        conv_lhs => rw [← List.take_append_drop (findBest a b).1 a]
        congr 1
        conv_lhs => rw [← List.take_append_drop (findBest a b).2.2 (a.drop (findBest a b).1)]
        rw [List.drop_drop]
      have hsplit_b : b = b.take (findBest a b).2.1 ++
          (((b.drop (findBest a b).2.1).take (findBest a b).2.2) ++
            b.drop ((findBest a b).2.1 + (findBest a b).2.2)) := by
        conv_lhs => rw [← List.take_append_drop (findBest a b).2.1 b]
        congr 1
        conv_lhs =>
          rw [← List.take_append_drop (findBest a b).2.2 (b.drop (findBest a b).2.1)]
        rw [List.drop_drop]
      have hlenmid : ((a.drop (findBest a b).1).take (findBest a b).2.2).length =
          (findBest a b).2.2 := by
        simp only [List.length_take, List.length_drop]
        omega
      have hself : interCount ((a.drop (findBest a b).1).take (findBest a b).2.2)
          ((b.drop (findBest a b).2.1).take (findBest a b).2.2) = (findBest a b).2.2 := by
        rw [← hmid, interCount_self, hlenmid]
      have h1 := ih (a.take (findBest a b).1) (b.take (findBest a b).2.1)
      have h2 := ih (a.drop ((findBest a b).1 + (findBest a b).2.2))
        (b.drop ((findBest a b).2.1 + (findBest a b).2.2))
      have hsup1 := interCount_append_add
        ((a.drop (findBest a b).1).take (findBest a b).2.2)
        (a.drop ((findBest a b).1 + (findBest a b).2.2))
        ((b.drop (findBest a b).2.1).take (findBest a b).2.2)
        (b.drop ((findBest a b).2.1 + (findBest a b).2.2))
      have hsup2 := interCount_append_add
        (a.take (findBest a b).1)
        (((a.drop (findBest a b).1).take (findBest a b).2.2) ++
          a.drop ((findBest a b).1 + (findBest a b).2.2))
        (b.take (findBest a b).2.1)
        (((b.drop (findBest a b).2.1).take (findBest a b).2.2) ++
          b.drop ((findBest a b).2.1 + (findBest a b).2.2))
      rw [← hsplit_a, ← hsplit_b] at hsup2
      simp only [matchTotal, if_neg hk]
      omega

theorem matchM_le_min (k w : List Char) : matchM k w ≤ min k.length w.length :=
  matchTotal_le_min k.length k w

theorem matchM_le_inter (k w : List Char) : matchM k w ≤ interCount k w :=
  matchTotal_le_inter k.length k w

/-- The 0.4 filter of `get_close_matches` reduces to the true-ratio test:
`real_quick_ratio` and `quick_ratio` are upper bounds on `ratio`. -/
theorem passesCutoff_eq (k w : List Char) :
    passesCutoff k w = cutoffOk (matchM k w) (ratioT k w) := by
  cases hC : cutoffOk (matchM k w) (ratioT k w)
  · simp [passesCutoff, hC]
  · have hm1 := matchM_le_min k w
    have hm2 := matchM_le_inter k w
    have hC' : ratioT k w ≤ 5 * matchM k w := by
      simpa [cutoffOk] using hC
    simp only [passesCutoff, hC, Bool.and_true]
    simp only [cutoffOk, decide_eq_true_eq, Bool.and_eq_true]
    omega

/-! ### The `(score, string)` tuple order used by `heapq.nlargest` -/

theorem lexLtCh_irrefl : ∀ x : List Char, lexLtCh x x = false := by
  intro x
  induction x with
  | nil => rfl
  | cons a as ih => simp [lexLtCh, ih]

theorem lexLtCh_asymm : ∀ {x y : List Char}, lexLtCh x y = true → lexLtCh y x = false := by
  intro x
  induction x with
  | nil =>
    intro y h
    cases y with
    | nil => simp [lexLtCh] at h
    | cons b bs => rfl
  | cons a as ih =>
    intro y h
    cases y with
    | nil => simp [lexLtCh] at h
    | cons b bs =>
      simp only [lexLtCh] at h ⊢
      rcases lt_trichotomy a b with hab | hab | hab
      · rw [if_neg (lt_asymm hab), if_pos hab]
      · subst hab
        rw [if_neg (lt_irrefl a), if_neg (lt_irrefl a)] at h ⊢
        exact ih h
      · rw [if_neg (lt_asymm hab), if_pos hab] at h
        exact absurd h (by simp)

theorem lexLtCh_trans : ∀ {x y z : List Char},
    lexLtCh x y = true → lexLtCh y z = true → lexLtCh x z = true := by
  intro x
  induction x with
  | nil =>
    intro y z h1 h2
    cases y with
    | nil => simp [lexLtCh] at h1
    | cons b bs =>
      cases z with
      | nil => simp [lexLtCh] at h2
      | cons c cs => rfl
  | cons a as ih =>
    intro y z h1 h2
    cases y with
    | nil => simp [lexLtCh] at h1
    | cons b bs =>
      cases z with
      | nil => simp [lexLtCh] at h2
      | cons c cs =>
        simp only [lexLtCh] at h1 h2 ⊢
        rcases lt_trichotomy a b with hab | hab | hab
        · rcases lt_trichotomy b c with hbc | hbc | hbc
          · rw [if_pos (lt_trans hab hbc)]
          · subst hbc
            rw [if_pos hab]
          · rw [if_neg (lt_asymm hbc), if_pos hbc] at h2
            exact absurd h2 (by simp)
        · subst hab
          rw [if_neg (lt_irrefl a), if_neg (lt_irrefl a)] at h1
          rcases lt_trichotomy a c with hac | hac | hac
          · rw [if_pos hac]
          · subst hac
            rw [if_neg (lt_irrefl a), if_neg (lt_irrefl a)] at h2 ⊢
            exact ih h1 h2
          · rw [if_neg (lt_asymm hac), if_pos hac] at h2
            exact absurd h2 (by simp)
        · rw [if_neg (lt_asymm hab), if_pos hab] at h1
          exact absurd h1 (by simp)

theorem lexLtCh_total : ∀ {x y : List Char},
    x ≠ y → lexLtCh x y = true ∨ lexLtCh y x = true := by
  intro x
  induction x with
  | nil =>
    intro y h
    cases y with
    | nil => exact absurd rfl h
    | cons b bs => left; rfl
  | cons a as ih =>
    intro y h
    cases y with
    | nil => right; rfl
    | cons b bs =>
      simp only [lexLtCh]
      rcases lt_trichotomy a b with hab | rfl | hba
      · left; rw [if_pos hab]
      · have hne : as ≠ bs := fun he => h (by rw [he])
        rcases ih hne with h' | h'
        · left
          simp only [lt_irrefl, if_neg (lt_irrefl a)]
          exact h'
        · right
          simp only [lt_irrefl, if_neg (lt_irrefl a)]
          exact h'
      · right; rw [if_pos hba]

theorem scoredGt_irrefl (w x : List Char) : scoredGt w x x = false := by
  simp [scoredGt, lexLtCh_irrefl]

theorem scoredGt_eq_true_iff (w x y : List Char) :
    scoredGt w x y = true ↔
      (matchM y w * ratioT x w < matchM x w * ratioT y w) ∨
      (matchM y w * ratioT x w = matchM x w * ratioT y w ∧ lexLtCh y x = true) := by
  simp only [scoredGt]
  by_cases h1 : matchM y w * ratioT x w < matchM x w * ratioT y w
  · simp [h1]
  · by_cases h2 : matchM x w * ratioT y w < matchM y w * ratioT x w
    · simp only [if_neg h1, if_pos h2]
      constructor
      · intro h; exact absurd h (by simp)
      · intro h
        rcases h with h | ⟨he, _⟩
        · exact absurd h h1
        · omega
    · have he : matchM y w * ratioT x w = matchM x w * ratioT y w := by omega
      simp [h1, h2, he]

theorem scoredGt_trans {w x y z : List Char}
    (htx : 0 < ratioT x w) (hty : 0 < ratioT y w) (htz : 0 < ratioT z w)
    (h1 : scoredGt w x y = true) (h2 : scoredGt w y z = true) :
    scoredGt w x z = true := by
  rw [scoredGt_eq_true_iff] at h1 h2 ⊢
  rcases h1 with h1 | ⟨h1e, h1l⟩ <;> rcases h2 with h2 | ⟨h2e, h2l⟩
  · left
    have hchain : matchM z w * ratioT x w * ratioT y w <
        matchM x w * ratioT z w * ratioT y w := by
      calc matchM z w * ratioT x w * ratioT y w
          = matchM z w * ratioT y w * ratioT x w := by ring
        _ < matchM y w * ratioT z w * ratioT x w :=
            mul_lt_mul_of_pos_right h2 htx
        _ = matchM y w * ratioT x w * ratioT z w := by ring
        _ < matchM x w * ratioT y w * ratioT z w :=
            mul_lt_mul_of_pos_right h1 htz
        _ = matchM x w * ratioT z w * ratioT y w := by ring
    exact lt_of_mul_lt_mul_right hchain (Nat.zero_le _)
  · left
    have hchain : matchM z w * ratioT x w * ratioT y w <
        matchM x w * ratioT z w * ratioT y w := by
      calc matchM z w * ratioT x w * ratioT y w
          = matchM z w * ratioT y w * ratioT x w := by ring
        _ = matchM y w * ratioT z w * ratioT x w := by rw [h2e]
        _ = matchM y w * ratioT x w * ratioT z w := by ring
        _ < matchM x w * ratioT y w * ratioT z w :=
            mul_lt_mul_of_pos_right h1 htz
        _ = matchM x w * ratioT z w * ratioT y w := by ring
    exact lt_of_mul_lt_mul_right hchain (Nat.zero_le _)
  · left
    have hchain : matchM z w * ratioT x w * ratioT y w <
        matchM x w * ratioT z w * ratioT y w := by
      calc matchM z w * ratioT x w * ratioT y w
          = matchM z w * ratioT y w * ratioT x w := by ring
        _ < matchM y w * ratioT z w * ratioT x w :=
            mul_lt_mul_of_pos_right h2 htx
        _ = matchM y w * ratioT x w * ratioT z w := by ring
        _ = matchM x w * ratioT y w * ratioT z w := by rw [h1e]
        _ = matchM x w * ratioT z w * ratioT y w := by ring
    exact lt_of_mul_lt_mul_right hchain (Nat.zero_le _)
  · right
    constructor
    · have hchain : matchM z w * ratioT x w * ratioT y w =
          matchM x w * ratioT z w * ratioT y w := by
        calc matchM z w * ratioT x w * ratioT y w
            = matchM z w * ratioT y w * ratioT x w := by ring
          _ = matchM y w * ratioT z w * ratioT x w := by rw [h2e]
          _ = matchM y w * ratioT x w * ratioT z w := by ring
          _ = matchM x w * ratioT y w * ratioT z w := by rw [h1e]
          _ = matchM x w * ratioT z w * ratioT y w := by ring
      exact Nat.eq_of_mul_eq_mul_right hty hchain
    · exact lexLtCh_trans h2l h1l

theorem scoredGt_false_false_eq {w x y : List Char}
    (h1 : scoredGt w x y = false) (h2 : scoredGt w y x = false) : x = y := by
  have h1' : ¬ ((matchM y w * ratioT x w < matchM x w * ratioT y w) ∨
      (matchM y w * ratioT x w = matchM x w * ratioT y w ∧ lexLtCh y x = true)) := by
    rw [← scoredGt_eq_true_iff]
    simp [h1]
  have h2' : ¬ ((matchM x w * ratioT y w < matchM y w * ratioT x w) ∨
      (matchM x w * ratioT y w = matchM y w * ratioT x w ∧ lexLtCh x y = true)) := by
    rw [← scoredGt_eq_true_iff]
    simp [h2]
  push_neg at h1' h2'
  have heq : matchM y w * ratioT x w = matchM x w * ratioT y w := by
    have := h1'.1
    have := h2'.1
    omega
  by_contra hne
  rcases lexLtCh_total hne with h | h
  · exact absurd h (by simpa using h2'.2 heq.symm)
  · exact absurd h (by simpa using h1'.2 heq)

theorem bool_eq_true_of_not_false {b : Bool} (h : ¬ b = false) : b = true := by
  cases b
  · exact absurd rfl h
  · rfl

theorem bool_eq_false_of_not_true {b : Bool} (h : ¬ b = true) : b = false := by
  cases b
  · rfl
  · exact absurd rfl h

theorem foldBest_mem (w : List Char) : ∀ (l : List (List Char)) (init : List Char),
    foldBest w init l = init ∨ foldBest w init l ∈ l := by
  intro l
  induction l with
  | nil => intro init; left; rfl
  | cons k rest ih =>
    intro init
    simp only [foldBest, List.foldl_cons]
    rcases ih (if scoredGt w k init then k else init) with h | h
    · rw [show foldBest w (if scoredGt w k init then k else init) rest =
          (rest.foldl (fun best k2 => if scoredGt w k2 best then k2 else best)
            (if scoredGt w k init then k else init)) from rfl] at h
      rw [h]
      by_cases hk : scoredGt w k init = true
      · right; rw [if_pos hk]; exact List.mem_cons_self _ _
      · left; rw [if_neg hk]
    · right
      exact List.mem_cons_of_mem _ h

theorem foldBest_max (w : List Char) : ∀ (l : List (List Char)) (init : List Char),
    (∀ k, (k = init ∨ k ∈ l) → 0 < ratioT k w) →
    ∀ x, (x = init ∨ x ∈ l) → scoredGt w x (foldBest w init l) = false := by
  intro l
  induction l with
  | nil =>
    intro init _ x hx
    rcases hx with rfl | hx
    · exact scoredGt_irrefl w x
    · simp at hx
  | cons k rest ih =>
    intro init hpos x hx
    have hposk : 0 < ratioT k w := hpos k (Or.inr (List.mem_cons_self _ _))
    have hposinit : 0 < ratioT init w := hpos init (Or.inl rfl)
    by_cases hk : scoredGt w k init = true
    · have hfold : foldBest w init (k :: rest) = foldBest w k rest := by
        simp only [foldBest, List.foldl_cons, if_pos hk]
      rw [hfold]
      have hpos' : ∀ k2, (k2 = k ∨ k2 ∈ rest) → 0 < ratioT k2 w := by
        intro k2 h2
        rcases h2 with rfl | h2
        · exact hposk
        · exact hpos k2 (Or.inr (List.mem_cons_of_mem _ h2))
      have hmax := ih k hpos'
      have hposr : 0 < ratioT (foldBest w k rest) w := by
        rcases foldBest_mem w rest k with h' | h'
        · rw [h']; exact hposk
        · exact hpos' _ (Or.inr h')
      rcases hx with rfl | hx
      · by_contra hcon
        have hxr : scoredGt w x (foldBest w k rest) = true :=
          bool_eq_true_of_not_false hcon
        have hkr : scoredGt w k (foldBest w k rest) = true :=
          scoredGt_trans hposk hposinit hposr hk hxr
        exact absurd hkr (by simp [hmax k (Or.inl rfl)])
      · rcases List.mem_cons.mp hx with rfl | hx
        · exact hmax x (Or.inl rfl)
        · exact hmax x (Or.inr hx)
    · have hkf : scoredGt w k init = false := bool_eq_false_of_not_true hk
      have hfold : foldBest w init (k :: rest) = foldBest w init rest := by
        simp only [foldBest, List.foldl_cons, hkf, if_false, Bool.false_eq_true]
      rw [hfold]
      have hpos' : ∀ k2, (k2 = init ∨ k2 ∈ rest) → 0 < ratioT k2 w := by
        intro k2 h2
        rcases h2 with rfl | h2
        · exact hposinit
        · exact hpos k2 (Or.inr (List.mem_cons_of_mem _ h2))
      have hmax := ih init hpos'
      have hposr : 0 < ratioT (foldBest w init rest) w := by
        rcases foldBest_mem w rest init with h' | h'
        · rw [h']; exact hposinit
        · exact hpos' _ (Or.inr h')
      rcases hx with rfl | hx
      · exact hmax x (Or.inl rfl)
      · rcases List.mem_cons.mp hx with rfl | hx
        · by_contra hcon
          have hxr : scoredGt w x (foldBest w init rest) = true :=
            bool_eq_true_of_not_false hcon
          have hinitr : scoredGt w init (foldBest w init rest) = false :=
            hmax init (Or.inl rfl)
          by_cases hix : scoredGt w init x = true
          · have : scoredGt w init (foldBest w init rest) = true :=
              scoredGt_trans hposinit (hpos x (Or.inr (List.mem_cons_self _ _))) hposr hix hxr
            exact absurd this (by simp [hinitr])
          · have hixf : scoredGt w init x = false := bool_eq_false_of_not_true hix
            have : x = init := scoredGt_false_false_eq hkf hixf
            rw [this] at hxr
            exact absurd hxr (by simp [hinitr])
        · exact hmax x (Or.inr hx)

theorem product_names_pos : ∀ k ∈ product_names, 0 < k.length := by decide

theorem get_close_match_none_iff (w : List Char) :
    get_close_match w = none ↔ ∀ k ∈ product_names, passesCutoff k w = false := by
  rcases hf : product_names.filter (fun k => passesCutoff k w) with _ | ⟨k0, rest⟩
  · simp only [get_close_match, hf]
    constructor
    · intro _ k hk
      have := List.filter_eq_nil_iff.mp hf k hk
      simpa using this
    · intro _; trivial
  · simp only [get_close_match, hf]
    constructor
    · intro h; exact absurd h (by simp)
    · intro hall
      have hk0 : k0 ∈ product_names.filter (fun k => passesCutoff k w) := by
        rw [hf]; exact List.mem_cons_self _ _
      have := List.mem_filter.mp hk0
      rw [hall k0 this.1] at this
      exact absurd this.2 (by simp)

theorem get_close_match_spec {w r : List Char}
    (h : get_close_match w = some r) :
    r ∈ product_names ∧ passesCutoff r w = true ∧
      ∀ k ∈ product_names, passesCutoff k w = true → scoredGt w k r = false := by
  rcases hf : product_names.filter (fun k => passesCutoff k w) with _ | ⟨k0, rest⟩ <;>
    simp only [get_close_match, hf] at h
  · exact absurd h (by simp)
  · have hr : r = foldBest w k0 rest := by
      have := Option.some.inj h
      exact this.symm
    have hsubf : ∀ k2, (k2 = k0 ∨ k2 ∈ rest) →
        k2 ∈ product_names.filter (fun k => passesCutoff k w) := by
      intro k2 h2
      rw [hf]
      rcases h2 with rfl | h2
      · exact List.mem_cons_self _ _
      · exact List.mem_cons_of_mem _ h2
    have hpos' : ∀ k2, (k2 = k0 ∨ k2 ∈ rest) → 0 < ratioT k2 w := by
      intro k2 h2
      have hmemN := (List.mem_filter.mp (hsubf k2 h2)).1
      have := product_names_pos k2 hmemN
      simp only [ratioT]
      omega
    have hrmem : r ∈ product_names.filter (fun k => passesCutoff k w) := by
      rcases foldBest_mem w rest k0 with h' | h'
      · exact hsubf r (Or.inl (hr.trans h'))
      · exact hsubf r (Or.inr (hr ▸ h'))
    have hrN := List.mem_filter.mp hrmem
    refine ⟨hrN.1, hrN.2, ?_⟩
    intro k hk hpass
    have hkf : k ∈ product_names.filter (fun k => passesCutoff k w) :=
      List.mem_filter.mpr ⟨hk, hpass⟩
    rw [hf] at hkf
    rw [hr]
    exact foldBest_max w rest k0 hpos' k (List.mem_cons.mp hkf)

theorem lookupKey_of_mem : ∀ k ∈ product_names,
    ∃ kp ∈ product_data, kp.1 = k ∧ lookupKey k = some kp.2 := by
  intro k hk
  simp only [product_names, product_data, List.map_cons, List.map_nil, List.mem_cons,
    List.not_mem_nil, or_false] at hk
  rcases hk with rfl | rfl | rfl | rfl
  · exact ⟨("snoopy tote".data, snoopy_tote), by decide, rfl, by decide⟩
  · exact ⟨("sunny tote".data, sunny_tote), by decide, rfl, by decide⟩
  · exact ⟨("strawberry miffi tote".data, strawberry_miffi_tote), by decide, rfl, by decide⟩
  · exact ⟨("miffy".data, strawberry_miffi_tote), by decide, rfl, by decide⟩

/-- Claim C7 (amended): when no alias is a substring of the normalized
query, `find_product` returns `none` (not an error) exactly when every
alias's similarity ratio is below the 0.4 cutoff (`cutoffOk m t` is
`2*m/t ≥ 0.4`; the quick-ratio prefilters never exclude a candidate, by
`passesCutoff_eq`); otherwise it returns the entry of a qualifying alias
that is maximal in the `(score, alias-string)` tuple order — so ratio
ties are broken towards the lexicographically greatest alias, not by
catalog definition order. -/
theorem find_product_fuzzy_characterization (q : List Char)
    (hno : ∀ kp ∈ product_data, containsSub (preprocess_text q) kp.1 = false) :
    (find_product q = none ↔
      ∀ kp ∈ product_data,
        cutoffOk (matchM kp.1 (preprocess_text q))
          (ratioT kp.1 (preprocess_text q)) = false) ∧
    (∀ p : Product, find_product q = some p →
      ∃ kp ∈ product_data, kp.2 = p ∧
        cutoffOk (matchM kp.1 (preprocess_text q))
          (ratioT kp.1 (preprocess_text q)) = true ∧
        ∀ kp2 ∈ product_data,
          cutoffOk (matchM kp2.1 (preprocess_text q))
            (ratioT kp2.1 (preprocess_text q)) = true →
          scoredGt (preprocess_text q) kp2.1 kp.1 = false) := by
  have hfindnone :
      product_data.find? (fun kp => containsSub (preprocess_text q) kp.1) = none :=
    List.find?_eq_none.mpr (fun kp hkp => by simp [hno kp hkp])
  have hfp : find_product q = (match get_close_match (preprocess_text q) with
      | some k => lookupKey k
      | none => none) := by
    show (match product_data.find? (fun kp => containsSub (preprocess_text q) kp.1) with
      | some kp => some kp.2
      | none =>
        match get_close_match (preprocess_text q) with
        | some k => lookupKey k
        | none => none) = _
    rw [hfindnone]
  constructor
  · constructor
    · intro hn
      rcases hgc : get_close_match (preprocess_text q) with _ | r
      · have hall := (get_close_match_none_iff _).mp hgc
        intro kp hkp
        have hk : kp.1 ∈ product_names := List.mem_map.mpr ⟨kp, hkp, rfl⟩
        have := hall kp.1 hk
        rw [passesCutoff_eq] at this
        exact this
      · exfalso
        rw [hgc] at hfp
        have hfp' : find_product q = lookupKey r := hfp
        obtain ⟨hrN, _, _⟩ := get_close_match_spec hgc
        obtain ⟨kp, _, _, hlk⟩ := lookupKey_of_mem r hrN
        rw [hfp', hlk] at hn
        exact absurd hn (by simp)
    · intro hall
      have hgc : get_close_match (preprocess_text q) = none := by
        rw [get_close_match_none_iff]
        intro k hk
        obtain ⟨kp, hkpmem, h1⟩ := List.mem_map.mp hk
        rw [passesCutoff_eq, ← h1]
        exact hall kp hkpmem
      rw [hgc] at hfp
      exact hfp
  · intro p hp
    rcases hgc : get_close_match (preprocess_text q) with _ | r
    · rw [hgc] at hfp
      have hfp' : find_product q = none := hfp
      rw [hfp'] at hp
      exact absurd hp (by simp)
    · rw [hgc] at hfp
      have hfp' : find_product q = lookupKey r := hfp
      obtain ⟨hrN, hrpass, hrmax⟩ := get_close_match_spec hgc
      obtain ⟨kp, hkpmem, hkp1, hlk⟩ := lookupKey_of_mem r hrN
      rw [hfp', hlk] at hp
      have hp2 : kp.2 = p := Option.some.inj hp
      refine ⟨kp, hkpmem, hp2, ?_, ?_⟩
      · rw [hkp1, ← passesCutoff_eq]
        exact hrpass
      · intro kp2 hkp2 hcut
        have hk2N : kp2.1 ∈ product_names := List.mem_map.mpr ⟨kp2, hkp2, rfl⟩
        have hpass2 : passesCutoff kp2.1 (preprocess_text q) = true := by
          rw [passesCutoff_eq]
          exact hcut
        rw [hkp1]
        exact hrmax kp2.1 hk2N hpass2

/-- Claim C7 witness at the query `"rawbinoop"`, which no alias matches
exactly. -/
theorem find_product_fuzzy_characterization_witness :
    (∀ kp ∈ product_data, containsSub (preprocess_text "rawbinoop".data) kp.1 = false) ∧
    ((find_product "rawbinoop".data = none ↔
      ∀ kp ∈ product_data,
        cutoffOk (matchM kp.1 (preprocess_text "rawbinoop".data))
          (ratioT kp.1 (preprocess_text "rawbinoop".data)) = false) ∧
    (∀ p : Product, find_product "rawbinoop".data = some p →
      ∃ kp ∈ product_data, kp.2 = p ∧
        cutoffOk (matchM kp.1 (preprocess_text "rawbinoop".data))
          (ratioT kp.1 (preprocess_text "rawbinoop".data)) = true ∧
        ∀ kp2 ∈ product_data,
          cutoffOk (matchM kp2.1 (preprocess_text "rawbinoop".data))
            (ratioT kp2.1 (preprocess_text "rawbinoop".data)) = true →
          scoredGt (preprocess_text "rawbinoop".data) kp2.1 kp.1 = false)) :=
  ⟨by decide, find_product_fuzzy_characterization _ (by decide)⟩

set_option maxRecDepth 40000 in
/-- Claim C7 counterexample: on the query `"rawbinoop"` both
"snoopy tote" (ratio 8/20) and "strawberry miffi tote" (ratio 12/30) tie
at exactly 0.4, no alias is an exact substring, "snoopy tote" comes first
in catalog definition order — yet `find_product` returns the
Strawberry Miffi Tote entry, because the tie is broken towards the
lexicographically greater alias, not by catalog order. -/
theorem find_product_fuzzy_tie_not_catalog_order :
    (∀ kp ∈ product_data, containsSub (preprocess_text "rawbinoop".data) kp.1 = false) ∧
    cutoffOk (matchM "snoopy tote".data (preprocess_text "rawbinoop".data))
      (ratioT "snoopy tote".data (preprocess_text "rawbinoop".data)) = true ∧
    cutoffOk (matchM "strawberry miffi tote".data (preprocess_text "rawbinoop".data))
      (ratioT "strawberry miffi tote".data (preprocess_text "rawbinoop".data)) = true ∧
    matchM "snoopy tote".data (preprocess_text "rawbinoop".data) *
        ratioT "strawberry miffi tote".data (preprocess_text "rawbinoop".data) =
      matchM "strawberry miffi tote".data (preprocess_text "rawbinoop".data) *
        ratioT "snoopy tote".data (preprocess_text "rawbinoop".data) ∧
    product_names = ["snoopy tote".data, "sunny tote".data,
      "strawberry miffi tote".data, "miffy".data] ∧
    find_product "rawbinoop".data = some strawberry_miffi_tote ∧
    find_product "rawbinoop".data ≠ some snoopy_tote := by
  refine ⟨by decide, by decide, by decide, by decide, by decide, by decide, by decide⟩
